import Mathlib

/-!
Verification of the incremental JSON-field streaming core of the
Feynman-Notebook backend (`backend/api/services/streaming.py`).

The two generators (`StreamGenerator.generate` and
`ChatStreamGenerator.generate`) are shallowly embedded as pure functions
from the sequence of upstream text deltas (plus an optional upstream
exception) to the list of emitted events.  Strings are `List Char`.

Notes on regex fidelity (checked against CPython `re`):

* `re.search(rf'"{f}"\s*:\s*"([^"]*(?:\\"[^"]*)*)', text)` — because
  `[^"]*` is greedy and a backslash is not a quote, the first branch
  `[^"]*` always consumes up to (but not including) the first `"` after
  the opening quote, including any backslash immediately before it; the
  alternative `(?:\\"[^"]*)*` then cannot start (the current character
  is `"`) and, as nothing follows the group, no backtracking occurs.
  The captured group is therefore exactly the run of characters up to
  the first `"`.  We model it with `takeWhile`.

* `re.findall(r'"([^"]*(?:\\"[^"]*)*)"', c)` — by the same analysis the
  group matches up to the first `"`, which then serves as the closing
  quote of the whole pattern.  Non-overlapping scanning thus pairs up
  the quote characters of `c`: items are the runs between quotes
  1 and 2, 3 and 4, and so on; a final unclosed run is dropped.

* `re.search(rf'"{f}"\s*:\s*(true|false)', text)` and
  `re.search(rf'"{f}"\s*:\s*\[(.*?)(?:\]|$)', text, re.DOTALL)` — the
  lazy group captures up to the first `]`, or to the end of the buffer
  when no `]` is present.

* `re.search` returns the match at the leftmost starting position.

* Field names are interpolated into the patterns verbatim; the model
  treats them as literal text, which is faithful for the
  identifier-like field names the backend uses (no regex
  metacharacters).

* Python `str.replace(a, b)` rewrites non-overlapping occurrences left
  to right, never rescanning replacement text; `replace2` below mirrors
  this for the two-character patterns used by the source.

* `\s` is modelled by its ASCII subset (space, tab, newline, carriage
  return, vertical tab, form feed).
-/

namespace Streaming

abbrev Str := List Char

def toL (s : String) : Str := s.data

/-- ASCII subset of Python's regex `\s`. -/
def isWS (c : Char) : Bool :=
  c == ' ' || c == '\t' || c == '\n' || c == '\r' || c == '\x0b' || c == '\x0c'

/-- Match, at the start of `s`, the common pattern head `"field"\s*:\s*`
and return the remainder of `s` after it. -/
def matchKeyAt (field s : Str) : Option Str :=
  let key := '"' :: field ++ ['"']
  if key.isPrefixOf s then
    match (s.drop key.length).dropWhile isWS with
    | ':' :: r => some (r.dropWhile isWS)
    | _ => none
  else none

/-- The string-field pattern `"field"\s*:\s*"([^"]*(?:\\"[^"]*)*)` matched
at the start of `s`: requires an opening quote after the colon and captures
up to the first following quote (see the regex note in the header). -/
def matchStringAt (field s : Str) : Option Str :=
  match matchKeyAt field s with
  | some ('"' :: body) => some (body.takeWhile (· != '"'))
  | _ => none

/-- The boolean pattern `"field"\s*:\s*(true|false)` matched at the start
of `s`; the emitted value is whether the matched literal is `true`. -/
def matchBoolAt (field s : Str) : Option Bool :=
  match matchKeyAt field s with
  | some r =>
    if (toL "true").isPrefixOf r then some true
    else if (toL "false").isPrefixOf r then some false
    else none
  | none => none

/-- The array pattern `"field"\s*:\s*\[(.*?)(?:\]|$)` (DOTALL) matched at
the start of `s`: lazily captures up to the first `]` or end of buffer. -/
def matchArrayAt (field s : Str) : Option Str :=
  match matchKeyAt field s with
  | some ('[' :: body) => some (body.takeWhile (· != ']'))
  | _ => none

/-- `re.search`: try the matcher at every position, leftmost first. -/
def searchWith (m : Str → Option α) : Str → Option α
  | [] => m []
  | c :: rest =>
    match m (c :: rest) with
    | some v => some v
    | none => searchWith m rest

/-- Python `str.replace` specialised to a two-character pattern `a ++ b`:
non-overlapping, left to right, the replacement is not rescanned. -/
def replace2 (a b : Char) (r : Str) : Str → Str
  | [] => []
  | [c] => [c]
  | c1 :: c2 :: rest =>
    if c1 == a && c2 == b then r ++ replace2 a b r rest
    else c1 :: replace2 a b r (c2 :: rest)

/-- Unescaping applied to string-field captures:
`.replace('\\"', '"').replace('\\n', '\n').replace('\\t', '\t')`. -/
def unescapeString (s : Str) : Str :=
  replace2 '\\' 't' ['\t'] (replace2 '\\' 'n' ['\n'] (replace2 '\\' '"' ['"'] s))

/-- Unescaping applied to array items:
`item.replace('\\"', '"').replace('\\n', '\n')` (no tab rule). -/
def unescapeItem (s : Str) : Str :=
  replace2 '\\' 'n' ['\n'] (replace2 '\\' '"' ['"'] s)

/-- `re.findall(r'"([^"]*(?:\\"[^"]*)*)"', s)` (see the header note):
pair up the quote characters of `s` and return the enclosed runs;
`acc` holds the reversed content of a currently open item. -/
def findQuotedAux : Str → Option Str → List Str
  | [], _ => []
  | '"' :: rest, none => findQuotedAux rest (some [])
  | '"' :: rest, some acc => acc.reverse :: findQuotedAux rest none
  | _ :: rest, none => findQuotedAux rest none
  | c :: rest, some acc => findQuotedAux rest (some (c :: acc))

def findQuoted (s : Str) : List Str := findQuotedAux s none

/-- The declared JSON type of a schema property
(`field_info.get('type', '')`). -/
inductive FieldKind where
  | string
  | array
  | boolean
  | other
deriving DecidableEq, Repr

/-- `response_schema.model_json_schema()['properties']` as an ordered
association list (Python dicts preserve insertion order). -/
abbrev Schema := List (Str × FieldKind)

/-- The events yielded by `StreamGenerator.generate`, abstracted from
their SSE wire framing.  `J` is the type of parsed JSON documents
produced by the terminal-parse collaborator (`json.loads`). -/
inductive Event (J : Type) where
  | partialEv (field : Str) (content : Str)
  | booleanEv (field : Str) (value : Bool)
  | arrayEv (field : Str) (items : List Str)
  | completeEv (value : J ⊕ Str)
  | errorEv (msg : Str)
deriving DecidableEq

/-- The mutable session state of one `generate` call. -/
structure SState where
  accumulated : Str
  cursors : List (Str × Nat)
  boolSent : List (Str × Bool)
  lastArray : Str
deriving DecidableEq

/-- `field_positions` after setup: one zero cursor per string field,
in schema order. -/
def initCursors (schema : Schema) : List (Str × Nat) :=
  schema.filterMap (fun p => if p.2 = FieldKind.string then some (p.1, 0) else none)

/-- `boolean_fields_sent` after setup. -/
def initBools (schema : Schema) : List (Str × Bool) :=
  schema.filterMap (fun p => if p.2 = FieldKind.boolean then some (p.1, false) else none)

/-- `array_field_name`: the first array-kind property, if any. -/
def arrayFieldOf (schema : Schema) : Option Str :=
  (schema.find? (fun p => p.2 = FieldKind.array)).map (·.1)

variable {J : Type}

/-- The string-field loop of one delta: for each cursor entry in order,
search the whole buffer, unescape the capture, emit the suffix past the
cursor when non-empty, and advance the cursor. -/
def scanStrings (accum : Str) : List (Str × Nat) → List (Event J) × List (Str × Nat)
  | [] => ([], [])
  | (f, pos) :: rest =>
    let res := scanStrings accum rest
    match searchWith (matchStringAt f) accum with
    | none => (res.1, (f, pos) :: res.2)
    | some cap =>
      let v := unescapeString cap
      let nc := v.drop pos
      if nc = [] then (res.1, (f, pos) :: res.2)
      else (Event.partialEv f nc :: res.1, (f, v.length) :: res.2)

/-- The boolean-field loop of one delta: fields fire at most once. -/
def scanBools (accum : Str) : List (Str × Bool) → List (Event J) × List (Str × Bool)
  | [] => ([], [])
  | (f, sent) :: rest =>
    let res := scanBools accum rest
    if sent then (res.1, (f, true) :: res.2)
    else
      match searchWith (matchBoolAt f) accum with
      | none => (res.1, (f, false) :: res.2)
      | some b => (Event.booleanEv f b :: res.1, (f, true) :: res.2)

/-- The array-field step of one delta: emit a full replacement when the
captured bracket content changed and at least one item is extractable. -/
def scanArray (accum : Str) (lastA : Str) : Option Str → List (Event J) × Str
  | none => ([], lastA)
  | some af =>
    match searchWith (matchArrayAt af) accum with
    | none => ([], lastA)
    | some content =>
      if content = lastA then ([], lastA)
      else
        let items := findQuoted content
        if items = [] then ([], lastA)
        else ([Event.arrayEv af (items.map unescapeItem)], content)

/-- Processing of one upstream chunk (`async for chunk in response`):
skipped entirely when `chunk.text` is falsy (`None` or empty). -/
def stepChunk (af : Option Str) (st : SState) (chunk : Option Str) :
    List (Event J) × SState :=
  match chunk with
  | none => ([], st)
  | some t =>
    if t = [] then ([], st)
    else
      let accum := st.accumulated ++ t
      let s1 := scanStrings accum st.cursors
      let s2 := scanBools accum st.boolSent
      let s3 := scanArray accum st.lastArray af
      (s1.1 ++ s2.1 ++ s3.1, ⟨accum, s1.2, s2.2, s3.2⟩)

/-- The delta loop over the received chunks. -/
def runChunks (af : Option Str) (st : SState) : List (Option Str) → List (Event J) × SState
  | [] => ([], st)
  | c :: cs =>
    let s := stepChunk af st c
    let r := runChunks af s.2 cs
    (s.1 ++ r.1, r.2)

/-- `StreamGenerator.generate`.  `deltas` are the chunk texts received
before the upstream iterator either finished (`upstreamErr = none`) or
raised (`upstreamErr = some message`); `parse` is the external
`json.loads` collaborator, returning `none` on `JSONDecodeError`. -/
def generate (parse : Str → Option J) (schema : Schema)
    (deltas : List (Option Str)) (upstreamErr : Option Str) : List (Event J) :=
  let af := arrayFieldOf schema
  let st0 : SState := ⟨[], initCursors schema, initBools schema, []⟩
  let r := runChunks af st0 deltas
  match upstreamErr with
  | some m => r.1 ++ [Event.errorEv m]
  | none =>
    match parse r.2.accumulated with
    | some j => r.1 ++ [Event.completeEv (Sum.inl j)]
    | none => r.1 ++ [Event.completeEv (Sum.inr r.2.accumulated)]

/-! ### The conversational streamer (`ChatStreamGenerator`) -/

/-- One entry of `conversation_history`; both keys are read with
`message.get(key, default)`, so either may be absent. -/
structure HistEntry where
  role : Option Str
  content : Option Str
deriving DecidableEq

inductive Role where
  | user
  | model
deriving DecidableEq, Repr

/-- One entry of the `contents` list sent to the model. -/
structure Turn where
  role : Role
  text : Str
deriving DecidableEq, Repr

/-- The history loop of `_build_conversation_contents`. -/
def normalizeHistory : List HistEntry → List Turn
  | [] => []
  | e :: rest =>
    let role := e.role.getD (toL "user")
    let content := e.content.getD []
    if role = toL "user" then ⟨Role.user, content⟩ :: normalizeHistory rest
    else if role = toL "assistant" ∨ role = toL "model" then
      ⟨Role.model, content⟩ :: normalizeHistory rest
    else normalizeHistory rest

/-- `ChatStreamGenerator._build_conversation_contents`. -/
def buildConversationContents (hist : List HistEntry) (msg : Str) : List Turn :=
  normalizeHistory hist ++ [⟨Role.user, msg⟩]

inductive ChatEvent where
  | textEv (content : Str)
  | completeEv (content : Str)
  | errorEv (msg : Str)
deriving DecidableEq

/-- The chunk loop of `ChatStreamGenerator.generate`: falsy chunk texts
are skipped, others are appended to the accumulator and echoed. -/
def chatRun (accum : Str) : List (Option Str) → List ChatEvent × Str
  | [] => ([], accum)
  | c :: cs =>
    match c with
    | none => chatRun accum cs
    | some t =>
      if t = [] then chatRun accum cs
      else
        let r := chatRun (accum ++ t) cs
        (ChatEvent.textEv t :: r.1, r.2)

/-- `ChatStreamGenerator.generate` (the conversation contents sent
upstream do not influence the emitted event stream). -/
def chatGenerate (deltas : List (Option Str)) (upstreamErr : Option Str) : List ChatEvent :=
  let r := chatRun [] deltas
  match upstreamErr with
  | some m => r.1 ++ [ChatEvent.errorEv m]
  | none => r.1 ++ [ChatEvent.completeEv r.2]

/-! ### A concrete JSON document model

`json.loads` is standard-library code external to this repository; the
streaming core only calls it once, at termination, and the claims treat
it as an opaque parser.  The theorems below are therefore stated over an
arbitrary `parse` collaborator; the definitions here provide one
concrete instantiation (used for witnesses and counterexamples),
implementing the JSON fragment that actually occurs in those concrete
inputs: objects, arrays, strings with the simple escapes, `true`,
`false`, `null` and integer numbers (no floats, exponents or `\u`
escapes; duplicate object keys resolve to the last occurrence, as in
Python dicts). -/

inductive Json where
  | jnull
  | jbool (b : Bool)
  | jnum (n : Int)
  | jstr (s : Str)
  | jarr (elems : List Json)
  | jobj (fields : List (Str × Json))

/-- JSON whitespace (the characters `json.loads` skips between tokens). -/
def isJsonWS (c : Char) : Bool :=
  c == ' ' || c == '\t' || c == '\n' || c == '\r'

def isDigitCh (c : Char) : Bool := '0' ≤ c ∧ c ≤ '9'

def digitsToNat (acc : Nat) : Str → Nat
  | [] => acc
  | c :: rest => digitsToNat (acc * 10 + (c.toNat - '0'.toNat)) rest

/-- Body of a JSON string literal, after its opening quote. -/
def jparseStr : Str → Option (Str × Str)
  | [] => none
  | '"' :: rest => some ([], rest)
  | '\\' :: e :: rest =>
    (match e with
     | '"' => some '"'
     | '\\' => some '\\'
     | '/' => some '/'
     | 'n' => some '\n'
     | 't' => some '\t'
     | 'r' => some '\r'
     | 'b' => some '\x08'
     | 'f' => some '\x0c'
     | _ => none).bind fun c =>
      (jparseStr rest).map fun (pr : Str × Str) => (c :: pr.1, pr.2)
  | c :: rest => (jparseStr rest).map fun (pr : Str × Str) => (c :: pr.1, pr.2)

mutual

/-- One JSON value, fuelled recursive descent. -/
def jparseVal : Nat → Str → Option (Json × Str)
  | 0, _ => none
  | fuel + 1, s =>
    match s.dropWhile isJsonWS with
    | '{' :: r => jparseObj fuel r true
    | '[' :: r => jparseArr fuel r true
    | '"' :: r => (jparseStr r).map fun p => (Json.jstr p.1, p.2)
    | 't' :: 'r' :: 'u' :: 'e' :: r => some (Json.jbool true, r)
    | 'f' :: 'a' :: 'l' :: 's' :: 'e' :: r => some (Json.jbool false, r)
    | 'n' :: 'u' :: 'l' :: 'l' :: r => some (Json.jnull, r)
    | '-' :: r =>
      let ds := r.takeWhile isDigitCh
      if ds = [] then none
      else some (Json.jnum (-(digitsToNat 0 ds : Int)), r.drop ds.length)
    | c :: r =>
      if isDigitCh c then
        let ds := (c :: r).takeWhile isDigitCh
        some (Json.jnum (digitsToNat 0 ds : Int), (c :: r).drop ds.length)
      else none
    | [] => none

/-- Object members, after `{`; `first` marks that none was parsed yet. -/
def jparseObj : Nat → Str → Bool → Option (Json × Str)
  | 0, _, _ => none
  | fuel + 1, s, first =>
    match s.dropWhile isJsonWS with
    | '}' :: r => if first then some (Json.jobj [], r) else none
    | '"' :: r =>
      (jparseStr r).bind fun kp =>
        match (kp.2.dropWhile isJsonWS) with
        | ':' :: r2 =>
          (jparseVal fuel r2).bind fun vp =>
            match vp.2.dropWhile isJsonWS with
            | ',' :: r3 =>
              (jparseObj fuel r3 false).bind fun op =>
                match op.1 with
                | Json.jobj fs => some (Json.jobj ((kp.1, vp.1) :: fs), op.2)
                | _ => none
            | '}' :: r3 => some (Json.jobj [(kp.1, vp.1)], r3)
            | _ => none
        | _ => none
    | _ => none

/-- Array elements, after `[`; `first` marks that none was parsed yet. -/
def jparseArr : Nat → Str → Bool → Option (Json × Str)
  | 0, _, _ => none
  | fuel + 1, s, first =>
    match s.dropWhile isJsonWS with
    | ']' :: r => if first then some (Json.jarr [], r) else none
    | s' =>
      (jparseVal fuel s').bind fun vp =>
        match vp.2.dropWhile isJsonWS with
        | ',' :: r2 =>
          (jparseArr fuel r2 false).bind fun ap =>
            match ap.1 with
            | Json.jarr es => some (Json.jarr (vp.1 :: es), ap.2)
            | _ => none
        | ']' :: r2 => some (Json.jarr [vp.1], r2)
        | _ => none

end

/-- `json.loads`: parse one complete document, allowing surrounding
whitespace only. -/
def jsonParse (s : Str) : Option Json :=
  match jparseVal (s.length + 1) s with
  | some (v, rest) => if rest.dropWhile isJsonWS = [] then some v else none
  | none => none

/-- Member lookup in a parsed object; later duplicates win, as in the
Python dict produced by `json.loads`. -/
def jlookup (f : Str) : Json → Option Json
  | Json.jobj fields => ((fields.reverse).find? (fun p => p.1 == f)).map (·.2)
  | _ => none

/-! ### Observables used by the claim statements -/

variable {J : Type}

def unwrapChunk : Option Str → Str
  | none => []
  | some t => t

/-- The accumulated text contributed by a chunk list. -/
def flattenChunks (deltas : List (Option Str)) : Str :=
  (deltas.map unwrapChunk).flatten

/-- The accumulated text after the first `t` chunks. -/
def accumAt (deltas : List (Option Str)) (t : Nat) : Str :=
  flattenChunks (deltas.take t)

def isTerminalEv : Event J → Bool
  | Event.completeEv _ => true
  | Event.errorEv _ => true
  | _ => false

/-- The field a non-terminal event is about. -/
def eventField : Event J → Option Str
  | Event.partialEv f _ => some f
  | Event.booleanEv f _ => some f
  | Event.arrayEv f _ => some f
  | _ => none

/-- The contents of the `partial` events for field `f`, in emission order. -/
def partialsFor (f : Str) (evs : List (Event J)) : List Str :=
  evs.filterMap fun e =>
    match e with
    | Event.partialEv g c => if g = f then some c else none
    | _ => none

def concatPartials (f : Str) (evs : List (Event J)) : Str :=
  (partialsFor f evs).flatten

/-- How many `boolean` events for field `f` the session emitted. -/
def boolCount (f : Str) (evs : List (Event J)) : Nat :=
  (evs.filter fun e =>
    match e with
    | Event.booleanEv g _ => g == f
    | _ => false).length

/-- The unescaped value the string-field extraction yields for `f` on a
given buffer (leftmost regex match, capture unescaped). -/
def fieldValueAt (f : Str) (accum : Str) : Option Str :=
  (searchWith (matchStringAt f) accum).map unescapeString

/-- How many entries for field `f` in a `boolean_fields_sent` table are
still pending (present and not yet fired). -/
def pendingF (f : Str) (bs : List (Str × Bool)) : Nat :=
  (bs.filter fun p => p.1 == f && !p.2).length

/-- The cursor value the string-field loop leaves for `f` after one tick
on buffer `accum`, starting from cursor `pos`. -/
def nextCursor (f : Str) (accum : Str) (pos : Nat) : Nat :=
  match searchWith (matchStringAt f) accum with
  | none => pos
  | some cap => if (unescapeString cap).drop pos = [] then pos else (unescapeString cap).length

/-- The `partial` contents the string-field loop emits for `f` on one
tick on buffer `accum`, starting from cursor `pos` (at most one). -/
def emittedFor (f : Str) (accum : Str) (pos : Nat) : List Str :=
  match searchWith (matchStringAt f) accum with
  | none => []
  | some cap => if (unescapeString cap).drop pos = [] then [] else [(unescapeString cap).drop pos]

/-- Growth of the extracted value across one delta: once a field has
matched, it must keep matching and its unescaped value must extend
(earlier emissions stay prefixes of later values). -/
def isGrowth : Option Str → Option Str → Bool
  | none, _ => true
  | some _, none => false
  | some v, some w => v.isPrefixOf w

/-- The terminal event a session ends with: `error` when the upstream
call raised, otherwise `complete` with the parsed document or, on parse
failure, the raw accumulated text. -/
def terminalEventOf (parse : Str → Option J) (deltas : List (Option Str))
    (err : Option Str) : Event J :=
  match err with
  | some m => Event.errorEv m
  | none =>
    match parse (flattenChunks deltas) with
    | some j => Event.completeEv (Sum.inl j)
    | none => Event.completeEv (Sum.inr (flattenChunks deltas))

/-- Per-entry role normalization as the history loop performs it:
`user` (also the default for a missing role) keeps the user role,
`assistant` and `model` map to the model role, anything else is
dropped. -/
def normEntry (e : HistEntry) : Option Turn :=
  let role := e.role.getD (toL "user")
  let content := e.content.getD []
  if role = toL "user" then some ⟨Role.user, content⟩
  else if role = toL "assistant" ∨ role = toL "model" then some ⟨Role.model, content⟩
  else none

/-- The chunk texts that actually produce `text` events: `None` and
empty texts are dropped. -/
def chatTexts (deltas : List (Option Str)) : List Str :=
  deltas.filterMap fun c =>
    match c with
    | none => none
    | some t => if t = [] then none else some t

end Streaming

/-! ## Structural lemmas about one session -/

namespace Streaming

variable {J : Type}

lemma flattenChunks_cons (c : Option Str) (cs : List (Option Str)) :
    flattenChunks (c :: cs) = unwrapChunk c ++ flattenChunks cs := by
  simp [flattenChunks]

lemma stepChunk_accumulated (af : Option Str) (st : SState) (c : Option Str) :
    ((stepChunk (J := J) af st c).2).accumulated = st.accumulated ++ unwrapChunk c := by
  match c with
  | none => simp [stepChunk, unwrapChunk]
  | some t =>
    by_cases h : t = [] <;> simp [stepChunk, unwrapChunk, h]

lemma runChunks_accumulated (af : Option Str) (st : SState) (deltas : List (Option Str)) :
    ((runChunks (J := J) af st deltas).2).accumulated
      = st.accumulated ++ flattenChunks deltas := by
  induction deltas generalizing st with
  | nil => simp [runChunks, flattenChunks]
  | cons c cs ih =>
    simp [runChunks, ih, stepChunk_accumulated, flattenChunks_cons]

lemma scanStrings_shape (accum : Str) (cs : List (Str × Nat)) :
    ∀ e ∈ (scanStrings (J := J) accum cs).1,
      ∃ g c, e = Event.partialEv g c ∧ g ∈ cs.map Prod.fst := by
  induction cs with
  | nil => simp [scanStrings]
  | cons p rest ih =>
    obtain ⟨f, pos⟩ := p
    intro e he
    simp only [scanStrings] at he
    rcases hs : searchWith (matchStringAt f) accum with _ | cap
    · rw [hs] at he
      simp only at he
      obtain ⟨g, c, hg, hmem⟩ := ih e he
      exact ⟨g, c, hg, by simp [hmem]⟩
    · rw [hs] at he
      simp only at he
      by_cases hnc : (unescapeString cap).drop pos = []
      · rw [if_pos hnc] at he
        obtain ⟨g, c, hg, hmem⟩ := ih e he
        exact ⟨g, c, hg, by simp [hmem]⟩
      · rw [if_neg hnc] at he
        rcases List.mem_cons.mp he with h | h
        · exact ⟨f, _, h, by simp⟩
        · obtain ⟨g, c, hg, hmem⟩ := ih e h
          exact ⟨g, c, hg, by simp [hmem]⟩

lemma scanBools_shape (accum : Str) (bs : List (Str × Bool)) :
    ∀ e ∈ (scanBools (J := J) accum bs).1,
      ∃ g b, e = Event.booleanEv g b ∧ g ∈ bs.map Prod.fst := by
  induction bs with
  | nil => simp [scanBools]
  | cons p rest ih =>
    obtain ⟨f, sent⟩ := p
    intro e he
    simp only [scanBools] at he
    by_cases hsent : sent
    · rw [if_pos hsent] at he
      obtain ⟨g, b, hg, hmem⟩ := ih e he
      exact ⟨g, b, hg, by simp [hmem]⟩
    · rw [if_neg hsent] at he
      rcases hs : searchWith (matchBoolAt f) accum with _ | b
      · rw [hs] at he
        simp only at he
        obtain ⟨g, b, hg, hmem⟩ := ih e he
        exact ⟨g, b, hg, by simp [hmem]⟩
      · rw [hs] at he
        simp only at he
        rcases List.mem_cons.mp he with h | h
        · exact ⟨f, b, h, by simp⟩
        · obtain ⟨g, b', hg, hmem⟩ := ih e h
          exact ⟨g, b', hg, by simp [hmem]⟩

lemma scanArray_shape (accum lastA : Str) (af : Option Str) :
    ∀ e ∈ (scanArray (J := J) accum lastA af).1,
      ∃ g items, e = Event.arrayEv g items ∧ af = some g := by
  match af with
  | none => simp [scanArray]
  | some a =>
    intro e he
    simp only [scanArray] at he
    rcases hs : searchWith (matchArrayAt a) accum with _ | content
    · rw [hs] at he; simp at he
    · rw [hs] at he
      simp only at he
      by_cases hc : content = lastA
      · rw [if_pos hc] at he; simp at he
      · rw [if_neg hc] at he
        by_cases hi : findQuoted content = []
        · rw [if_pos hi] at he; simp at he
        · rw [if_neg hi] at he
          rcases List.mem_singleton.mp he with h
          exact ⟨a, _, h, rfl⟩

lemma scanStrings_names (accum : Str) (cs : List (Str × Nat)) :
    ((scanStrings (J := J) accum cs).2).map Prod.fst = cs.map Prod.fst := by
  induction cs with
  | nil => simp [scanStrings]
  | cons p rest ih =>
    obtain ⟨f, pos⟩ := p
    simp only [scanStrings]
    rcases hs : searchWith (matchStringAt f) accum with _ | cap
    · simpa using ih
    · dsimp only
      by_cases hnc : (unescapeString cap).drop pos = []
      · rw [if_pos hnc]; simpa using ih
      · rw [if_neg hnc]; simpa using ih

lemma scanBools_names (accum : Str) (bs : List (Str × Bool)) :
    ((scanBools (J := J) accum bs).2).map Prod.fst = bs.map Prod.fst := by
  induction bs with
  | nil => simp [scanBools]
  | cons p rest ih =>
    obtain ⟨f, sent⟩ := p
    simp only [scanBools]
    by_cases hsent : sent
    · rw [if_pos hsent]; simpa using ih
    · rw [if_neg hsent]
      rcases hs : searchWith (matchBoolAt f) accum with _ | b
      · simpa using ih
      · simpa using ih

lemma stepChunk_names (af : Option Str) (st : SState) (c : Option Str) :
    ((stepChunk (J := J) af st c).2).cursors.map Prod.fst = st.cursors.map Prod.fst
    ∧ ((stepChunk (J := J) af st c).2).boolSent.map Prod.fst = st.boolSent.map Prod.fst := by
  match c with
  | none => simp [stepChunk]
  | some t =>
    by_cases h : t = [] <;>
      simp [stepChunk, h, scanStrings_names, scanBools_names]

lemma stepChunk_shape (af : Option Str) (st : SState) (c : Option Str) :
    ∀ e ∈ (stepChunk (J := J) af st c).1,
      (∃ g cc, e = Event.partialEv g cc ∧ g ∈ st.cursors.map Prod.fst)
      ∨ (∃ g b, e = Event.booleanEv g b ∧ g ∈ st.boolSent.map Prod.fst)
      ∨ (∃ g items, e = Event.arrayEv g items ∧ af = some g) := by
  match c with
  | none => simp [stepChunk]
  | some t =>
    by_cases h : t = []
    · simp [stepChunk, h]
    · intro e he
      simp only [stepChunk, h, if_neg] at he
      rcases List.mem_append.mp he with h1 | h1
      · rcases List.mem_append.mp h1 with h2 | h2
        · exact Or.inl (scanStrings_shape _ _ e h2)
        · exact Or.inr (Or.inl (scanBools_shape _ _ e h2))
      · exact Or.inr (Or.inr (scanArray_shape _ _ _ e h1))

lemma runChunks_shape (af : Option Str) (st : SState) (deltas : List (Option Str)) :
    ∀ e ∈ (runChunks (J := J) af st deltas).1,
      (∃ g cc, e = Event.partialEv g cc ∧ g ∈ st.cursors.map Prod.fst)
      ∨ (∃ g b, e = Event.booleanEv g b ∧ g ∈ st.boolSent.map Prod.fst)
      ∨ (∃ g items, e = Event.arrayEv g items ∧ af = some g) := by
  induction deltas generalizing st with
  | nil => simp [runChunks]
  | cons c cs ih =>
    intro e he
    simp only [runChunks] at he
    rcases List.mem_append.mp he with h1 | h1
    · exact stepChunk_shape af st c e h1
    · have h2 := ih ((stepChunk (J := J) af st c).2) e h1
      rcases stepChunk_names (J := J) af st c with ⟨hc, hb⟩
      rw [hc, hb] at h2
      exact h2

lemma runChunks_nonterminal (af : Option Str) (st : SState) (deltas : List (Option Str)) :
    ∀ e ∈ (runChunks (J := J) af st deltas).1, isTerminalEv e = false := by
  intro e he
  rcases runChunks_shape af st deltas e he with ⟨g, cc, rfl, _⟩ | ⟨g, b, rfl, _⟩ | ⟨g, i, rfl, _⟩ <;>
    rfl

lemma generate_eq (parse : Str → Option J) (schema : Schema)
    (deltas : List (Option Str)) (err : Option Str) :
    generate parse schema deltas err
      = (runChunks (arrayFieldOf schema) ⟨[], initCursors schema, initBools schema, []⟩ deltas).1
        ++ [terminalEventOf parse deltas err] := by
  have hacc := runChunks_accumulated (J := J) (arrayFieldOf schema)
    ⟨[], initCursors schema, initBools schema, []⟩ deltas
  simp only [List.nil_append] at hacc
  match err with
  | some m => simp [generate, terminalEventOf]
  | none =>
    simp only [generate, terminalEventOf, hacc]
    rcases parse (flattenChunks deltas) with _ | j <;> simp

lemma runChunks_no_fields (acc la : Str) (deltas : List (Option Str)) :
    (runChunks (J := J) none ⟨acc, [], [], la⟩ deltas).1 = [] := by
  induction deltas generalizing acc la with
  | nil => rfl
  | cons c cs ih =>
    match c with
    | none => simpa [runChunks, stepChunk] using ih acc la
    | some t =>
      by_cases h : t = []
      · simpa [runChunks, stepChunk, h] using ih acc la
      · simpa [runChunks, stepChunk, h, scanStrings, scanBools, scanArray]
          using ih (acc ++ t) la

lemma chatRun_eq (accum : Str) (deltas : List (Option Str)) :
    chatRun accum deltas
      = ((chatTexts deltas).map ChatEvent.textEv, accum ++ (chatTexts deltas).flatten) := by
  induction deltas generalizing accum with
  | nil => simp [chatRun, chatTexts]
  | cons c cs ih =>
    match c with
    | none => simpa [chatRun, chatTexts, List.filterMap_cons] using ih accum
    | some t =>
      by_cases h : t = []
      · simpa [chatRun, chatTexts, List.filterMap_cons, h] using ih accum
      · simp [chatRun, chatTexts, List.filterMap_cons, h, ih (accum ++ t)]

lemma normalizeHistory_eq (hist : List HistEntry) :
    normalizeHistory hist = hist.filterMap normEntry := by
  induction hist with
  | nil => rfl
  | cons e rest ih =>
    by_cases h1 : e.role.getD (toL "user") = toL "user"
    · simp [normalizeHistory, normEntry, h1, ih, List.filterMap_cons]
    · by_cases h2 : e.role.getD (toL "user") = toL "assistant"
        ∨ e.role.getD (toL "user") = toL "model"
      · simp [normalizeHistory, normEntry, h1, h2, ih, List.filterMap_cons]
      · simp [normalizeHistory, normEntry, h1, h2, ih, List.filterMap_cons]

/-! ## The claims -/

/-- C1: every session of `StreamGenerator.generate` — any delta sequence,
with or without an upstream exception — ends with exactly one terminal
event, which is the last event emitted: an `error` event exactly when the
upstream call raised, a `complete` event on normal stream end; a final
JSON parse failure alone never yields an `error` event (the `complete`
event then carries the raw text). -/
theorem C1_terminal_exclusivity (J : Type) (parse : Str → Option J) (schema : Schema)
    (deltas : List (Option Str)) (err : Option Str) :
    ((generate parse schema deltas err).dropLast.all fun e => !isTerminalEv e) = true
    ∧ (generate parse schema deltas err).getLast? = some (terminalEventOf parse deltas err)
    ∧ isTerminalEv (terminalEventOf parse deltas err) = true := by
  refine ⟨?_, ?_, ?_⟩
  · rw [generate_eq, List.dropLast_concat, List.all_eq_true]
    intro e he
    simp [runChunks_nonterminal _ _ _ e he]
  · rw [generate_eq]
    exact List.getLast?_concat _
  · match err with
    | some m => rfl
    | none =>
      rw [terminalEventOf]
      rcases parse (flattenChunks deltas) with _ | j <;> rfl

/-- C3: at session end without an upstream exception, the terminal
`complete` event carries the parsed document when the accumulated text
parses, and otherwise the raw accumulated string unchanged. -/
theorem C3_terminal_value (J : Type) (parse : Str → Option J) (schema : Schema)
    (deltas : List (Option Str)) :
    (generate parse schema deltas none).getLast?
      = some (match parse (flattenChunks deltas) with
          | some j => Event.completeEv (Sum.inl j)
          | none => Event.completeEv (Sum.inr (flattenChunks deltas))) := by
  rw [generate_eq, List.getLast?_concat, terminalEventOf]

/-- C9: a schema declaring no string, array or boolean properties makes
the session degenerate but not fatal: no non-terminal events, only the
single terminal event, for every delta sequence and error outcome. -/
theorem C9_zero_field_schema (J : Type) (parse : Str → Option J) (schema : Schema)
    (deltas : List (Option Str)) (err : Option Str)
    (h : ∀ p ∈ schema, p.2 = FieldKind.other) :
    generate parse schema deltas err = [terminalEventOf parse deltas err] := by
  have hc : initCursors schema = [] := by
    rw [initCursors, List.filterMap_eq_nil_iff]
    intro p hp
    rw [h p hp]
    rfl
  have hb : initBools schema = [] := by
    rw [initBools, List.filterMap_eq_nil_iff]
    intro p hp
    rw [h p hp]
    rfl
  have ha : arrayFieldOf schema = none := by
    have : schema.find? (fun p => p.2 = FieldKind.array) = none := by
      rw [List.find?_eq_none]
      intro p hp
      simp [h p hp]
    rw [arrayFieldOf, this]
    rfl
  rw [generate_eq, hc, hb, ha, runChunks_no_fields]
  simp

/-- C9 witness: a concrete schema with one non-stream-typed property and
a concrete delta sequence produce exactly the lone terminal event. -/
theorem C9_zero_field_schema_witness :
    generate (fun _ => (none : Option Unit)) [(toL "meta", FieldKind.other)]
        [some (toL "\x7b\"meta\": 1\x7d")] none
      = [terminalEventOf (fun _ => (none : Option Unit)) [some (toL "\x7b\"meta\": 1\x7d")] none] :=
  C9_zero_field_schema Unit (fun _ => none) [(toL "meta", FieldKind.other)]
    [some (toL "\x7b\"meta\": 1\x7d")] none (by decide)

/-- C10: in a non-erroring chat session the terminal `complete` event
carries exactly the concatenation, in emission order, of the `text`
event contents, and chunks whose text is `None` or empty produce no
`text` event and contribute nothing. -/
theorem C10_chat_concat (deltas : List (Option Str)) :
    chatGenerate deltas none
      = (chatTexts deltas).map ChatEvent.textEv
        ++ [ChatEvent.completeEv (chatTexts deltas).flatten] := by
  simp [chatGenerate, chatRun_eq]

/-- C6 counterexample: a history entry whose role is neither `user`,
`assistant` nor `model` (here `system`) is dropped from the normalized
contents instead of being normalized to the user role, so the output
lacks the user-role turn the claim predicts. -/
theorem C6_counterexample :
    buildConversationContents [⟨some (toL "system"), some (toL "x")⟩] (toL "bye")
      = [⟨Role.user, toL "bye"⟩]
    ∧ buildConversationContents [⟨some (toL "system"), some (toL "x")⟩] (toL "bye")
      ≠ [⟨Role.user, toL "x"⟩, ⟨Role.user, toL "bye"⟩] :=
  ⟨rfl, by decide⟩

lemma arrayEv_not_mem_scanStrings (accum : Str) (cs : List (Str × Nat)) (g : Str)
    (items : List Str) : Event.arrayEv (J := J) g items ∉ (scanStrings (J := J) accum cs).1 := by
  intro h
  obtain ⟨g', c', heq, _⟩ := scanStrings_shape accum cs _ h
  exact Event.noConfusion heq

lemma arrayEv_not_mem_scanBools (accum : Str) (bs : List (Str × Bool)) (g : Str)
    (items : List Str) : Event.arrayEv (J := J) g items ∉ (scanBools (J := J) accum bs).1 := by
  intro h
  obtain ⟨g', b', heq, _⟩ := scanBools_shape accum bs _ h
  exact Event.noConfusion heq

lemma mem_scanArray_iff (accum lastA : Str) (af g : Str) (items : List Str) :
    Event.arrayEv (J := J) g items ∈ (scanArray (J := J) accum lastA (some af)).1
      ↔ g = af ∧ ∃ content, searchWith (matchArrayAt af) accum = some content
          ∧ content ≠ lastA ∧ findQuoted content ≠ []
          ∧ items = (findQuoted content).map unescapeItem := by
  constructor
  · intro h
    simp only [scanArray] at h
    rcases hs : searchWith (matchArrayAt af) accum with _ | content
    · rw [hs] at h; simp at h
    · rw [hs] at h
      dsimp only at h
      by_cases hc : content = lastA
      · rw [if_pos hc] at h; simp at h
      · rw [if_neg hc] at h
        by_cases hi : findQuoted content = []
        · rw [if_pos hi] at h; simp at h
        · rw [if_neg hi] at h
          have := List.mem_singleton.mp h
          refine ⟨?_, content, rfl, hc, hi, ?_⟩
          · exact (Event.arrayEv.injEq _ _ _ _).mp this |>.1
          · exact (Event.arrayEv.injEq _ _ _ _).mp this |>.2
  · rintro ⟨rfl, content, hs, hc, hi, rfl⟩
    simp only [scanArray, hs]
    rw [if_neg hc, if_neg hi]
    exact List.mem_singleton.mpr rfl

/-- C5: on any single tick, if the captured bracket content equals the
last snapshot then no `array` event is emitted, and any `array` event
that is emitted names the tracked array field and carries exactly the
double-quoted literals currently extractable from the captured bracket
content, in order (each unescaped by the item rules). -/
theorem C5_array_replacement (J : Type) (af : Str) (st : SState) (c : Option Str) :
    (searchWith (matchArrayAt af) (st.accumulated ++ unwrapChunk c) = some st.lastArray →
      ∀ g items, Event.arrayEv g items ∉ (stepChunk (J := J) (some af) st c).1)
    ∧ (∀ g items, Event.arrayEv g items ∈ (stepChunk (J := J) (some af) st c).1 →
        g = af
        ∧ ∃ content,
            searchWith (matchArrayAt af) (st.accumulated ++ unwrapChunk c) = some content
            ∧ content ≠ st.lastArray
            ∧ items = (findQuoted content).map unescapeItem) := by
  have hstep : ∀ g items, Event.arrayEv (J := J) g items ∈ (stepChunk (J := J) (some af) st c).1 →
      Event.arrayEv (J := J) g items
        ∈ (scanArray (J := J) (st.accumulated ++ unwrapChunk c) st.lastArray (some af)).1 := by
    intro g items h
    match c with
    | none => simp [stepChunk] at h
    | some t =>
      by_cases ht : t = []
      · simp [stepChunk, ht] at h
      · simp only [stepChunk, ht, if_neg] at h
        rcases List.mem_append.mp h with h1 | h1
        · rcases List.mem_append.mp h1 with h2 | h2
          · exact absurd h2 (arrayEv_not_mem_scanStrings _ _ _ _)
          · exact absurd h2 (arrayEv_not_mem_scanBools _ _ _ _)
        · simpa [unwrapChunk] using h1
  constructor
  · intro hsame g items h
    have h2 := (mem_scanArray_iff _ _ _ _ _).mp (hstep g items h)
    obtain ⟨_, content, hs, hc, _, _⟩ := h2
    rw [hsame] at hs
    exact hc (Option.some_injective _ hs).symm
  · intro g items h
    have h2 := (mem_scanArray_iff _ _ _ _ _).mp (hstep g items h)
    obtain ⟨hg, content, hs, hc, _, hitems⟩ := h2
    exact ⟨hg, content, hs, hc, hitems⟩

/-- C5 witness: a concrete tick whose bracket content changed emits the
`array` event for the tracked field with exactly the extractable
literals. -/
theorem C5_array_replacement_witness :
    (toL "tags") = (toL "tags")
    ∧ ∃ content,
        searchWith (matchArrayAt (toL "tags"))
            ((SState.mk (toL "\x7b\"tags\": [") [] [] []).accumulated
              ++ unwrapChunk (some (toL "\"a\"]"))) = some content
        ∧ content ≠ (SState.mk (toL "\x7b\"tags\": [") [] [] []).lastArray
        ∧ [toL "a"] = (findQuoted content).map unescapeItem :=
  (C5_array_replacement Unit (toL "tags") ⟨toL "\x7b\"tags\": [", [], [], []⟩
      (some (toL "\"a\"]"))).2 (toL "tags") [toL "a"] (by decide)

lemma runChunks_arrayEv_items (af : Option Str) (st : SState) (deltas : List (Option Str))
    (g : Str) (items : List Str) :
    Event.arrayEv (J := J) g items ∈ (runChunks (J := J) af st deltas).1 →
    ∃ raws : List Str, items = raws.map unescapeItem := by
  induction deltas generalizing st with
  | nil => simp [runChunks]
  | cons c cs ih =>
    intro h
    simp only [runChunks] at h
    rcases List.mem_append.mp h with h1 | h1
    · match c with
      | none => simp [stepChunk] at h1
      | some t =>
        by_cases ht : t = []
        · simp [stepChunk, ht] at h1
        · simp only [stepChunk, ht, if_neg] at h1
          rcases List.mem_append.mp h1 with h2 | h2
          · rcases List.mem_append.mp h2 with h3 | h3
            · exact absurd h3 (arrayEv_not_mem_scanStrings _ _ _ _)
            · exact absurd h3 (arrayEv_not_mem_scanBools _ _ _ _)
          · match af with
            | none => simp [scanArray] at h2
            | some a =>
              obtain ⟨_, content, _, _, _, hitems⟩ := (mem_scanArray_iff _ _ _ _ _).mp h2
              exact ⟨findQuoted content, hitems⟩
    · exact ih ((stepChunk (J := J) af st c).2) h1

/-- C7 counterexample: an array item containing the two characters `\t`
is emitted with them intact — emitted as `a\tb`, not unescaped to a tab
as the string-field rules would do — because item unescaping omits the
tab rule. -/
theorem C7_counterexample :
    generate (fun _ => (none : Option Unit)) [(toL "tags", FieldKind.array)]
        [some (toL "\x7b\"tags\": [\"a\\tb\"]\x7d")] none
      = [Event.arrayEv (toL "tags") [toL "a\\tb"],
         Event.completeEv (Sum.inr (toL "\x7b\"tags\": [\"a\\tb\"]\x7d"))]
    ∧ toL "a\\tb" ≠ ['a', '\t', 'b'] := by
  constructor
  · rfl
  · decide

/-- C7 (amended): every item carried in an `array` event is the image of
an extracted literal under the item unescaping rules, which convert
`\"` to a double quote and `\n` to a newline but leave `\t` untouched
(unlike string-field unescaping). -/
theorem C7_item_unescaping (J : Type) (parse : Str → Option J) (schema : Schema)
    (deltas : List (Option Str)) (err : Option Str) (g : Str) (items : List Str) :
    Event.arrayEv g items ∈ generate parse schema deltas err →
    ∃ raws : List Str,
      items = raws.map fun r => replace2 '\\' 'n' ['\n'] (replace2 '\\' '"' ['"'] r) := by
  intro h
  rw [generate_eq] at h
  rcases List.mem_append.mp h with h1 | h1
  · exact runChunks_arrayEv_items _ _ _ _ _ h1
  · exfalso
    have := List.mem_singleton.mp h1
    revert this
    match err with
    | some m => exact fun h => Event.noConfusion h
    | none =>
      rw [terminalEventOf]
      rcases parse (flattenChunks deltas) with _ | j <;> exact fun h => Event.noConfusion h

/-- C7 witness: the concrete session of the counterexample, with its
emitted item exhibited as the quote-and-newline-only unescaping of the
raw literal. -/
theorem C7_item_unescaping_witness :
    ∃ raws : List Str, [toL "a\\tb"]
      = raws.map fun r => replace2 '\\' 'n' ['\n'] (replace2 '\\' '"' ['"'] r) :=
  C7_item_unescaping Unit (fun _ => none) [(toL "tags", FieldKind.array)]
    [some (toL "\x7b\"tags\": [\"a\\tb\"]\x7d")] none (toL "tags") [toL "a\\tb"] (by decide)

lemma nodup_keys_eq {β : Type} {l : List (Str × β)} (h : (l.map Prod.fst).Nodup)
    {k : Str} {b c : β} (hb : (k, b) ∈ l) (hc : (k, c) ∈ l) : b = c := by
  induction l with
  | nil => exact absurd hb (List.not_mem_nil _)
  | cons p rest ih =>
    have hnd := h
    rw [List.map_cons, List.nodup_cons] at hnd
    rcases List.mem_cons.mp hb with hb1 | hb1 <;> rcases List.mem_cons.mp hc with hc1 | hc1
    · rw [← hb1] at hc1
      exact ((Prod.mk.injEq _ _ _ _).mp hc1).2.symm
    · exfalso
      apply hnd.1
      rw [← hb1]
      exact List.mem_map.mpr ⟨(k, c), hc1, rfl⟩
    · exfalso
      apply hnd.1
      rw [← hc1]
      exact List.mem_map.mpr ⟨(k, b), hb1, rfl⟩
    · exact ih hnd.2 hb1 hc1

lemma mem_initCursors_names {schema : Schema} {g : Str} :
    g ∈ (initCursors schema).map Prod.fst → (g, FieldKind.string) ∈ schema := by
  intro h
  obtain ⟨⟨g', n⟩, hmem, heq⟩ := List.mem_map.mp h
  obtain ⟨p, hp, hpe⟩ := List.mem_filterMap.mp hmem
  by_cases hk : p.2 = FieldKind.string
  · rw [if_pos hk] at hpe
    obtain ⟨h1, _⟩ := (Prod.mk.injEq _ _ _ _).mp (Option.some_injective _ hpe)
    have : p = (g, FieldKind.string) := by
      rcases p with ⟨p1, p2⟩
      simp only at h1 hk
      rw [Prod.mk.injEq]
      exact ⟨h1.trans heq, hk⟩
    rw [← this]
    exact hp
  · rw [if_neg hk] at hpe
    exact absurd hpe (by simp)

lemma mem_initBools_names {schema : Schema} {g : Str} :
    g ∈ (initBools schema).map Prod.fst → (g, FieldKind.boolean) ∈ schema := by
  intro h
  obtain ⟨⟨g', n⟩, hmem, heq⟩ := List.mem_map.mp h
  obtain ⟨p, hp, hpe⟩ := List.mem_filterMap.mp hmem
  by_cases hk : p.2 = FieldKind.boolean
  · rw [if_pos hk] at hpe
    obtain ⟨h1, _⟩ := (Prod.mk.injEq _ _ _ _).mp (Option.some_injective _ hpe)
    have : p = (g, FieldKind.boolean) := by
      rcases p with ⟨p1, p2⟩
      simp only at h1 hk
      rw [Prod.mk.injEq]
      exact ⟨h1.trans heq, hk⟩
    rw [← this]
    exact hp
  · rw [if_neg hk] at hpe
    exact absurd hpe (by simp)

/-- C8: only the first array-kind field in schema order is tracked; an
array-kind field that is not the one `array_field_name` picked never
produces any event in the session (field names are unique, as they come
from a Python dict). -/
theorem C8_first_array_only (J : Type) (parse : Str → Option J) (schema : Schema)
    (deltas : List (Option Str)) (err : Option Str) (f : Str)
    (hnodup : (schema.map Prod.fst).Nodup)
    (hf : (f, FieldKind.array) ∈ schema)
    (hnot : arrayFieldOf schema ≠ some f) :
    ∀ e ∈ generate parse schema deltas err, eventField e ≠ some f := by
  intro e he
  rw [generate_eq] at he
  rcases List.mem_append.mp he with h1 | h1
  · rcases runChunks_shape _ _ _ e h1 with ⟨g, cc, rfl, hg⟩ | ⟨g, b, rfl, hg⟩ | ⟨g, its, rfl, hg⟩
    · simp only [eventField, ne_eq, Option.some.injEq]
      intro hgf
      rw [hgf] at hg
      have := mem_initCursors_names hg
      exact FieldKind.noConfusion (nodup_keys_eq hnodup this hf)
    · simp only [eventField, ne_eq, Option.some.injEq]
      intro hgf
      rw [hgf] at hg
      have := mem_initBools_names hg
      exact FieldKind.noConfusion (nodup_keys_eq hnodup this hf)
    · simp only [eventField, ne_eq, Option.some.injEq]
      intro hgf
      rw [hgf] at hg
      exact hnot hg
  · have := List.mem_singleton.mp h1
    rw [this]
    match err with
    | some m => exact fun h => Option.noConfusion h
    | none =>
      rw [terminalEventOf]
      rcases parse (flattenChunks deltas) with _ | j <;> exact fun h => Option.noConfusion h

/-- C8 witness: with two array-kind fields declared, an event of the
session (the `array` event for the first one) is not about the second. -/
theorem C8_first_array_only_witness :
    eventField (Event.arrayEv (J := Unit) (toL "xs") [toL "a"]) ≠ some (toL "ys") :=
  C8_first_array_only Unit (fun _ => none)
    [(toL "xs", FieldKind.array), (toL "ys", FieldKind.array)]
    [some (toL "\x7b\"xs\": [\"a\"], \"ys\": [\"b\"]\x7d")] none (toL "ys")
    (by decide) (by decide) (by decide)
    (Event.arrayEv (toL "xs") [toL "a"]) (by decide)

/-- C6 (amended): entries with role `assistant` or `model` normalize to
the model role; entries with role `user` — or with no role key, which
defaults to `user` — normalize to the user role; entries with any other
role are dropped.  Order is preserved and the current message is
appended as a final user turn, so `[{user,hi},{assistant,hello}]` with
message `bye` yields `[user:hi, model:hello, user:bye]`. -/
theorem C6_role_normalization (hist : List HistEntry) (msg : Str) :
    buildConversationContents hist msg = hist.filterMap normEntry ++ [⟨Role.user, msg⟩]
    ∧ buildConversationContents
        [⟨some (toL "user"), some (toL "hi")⟩, ⟨some (toL "assistant"), some (toL "hello")⟩]
        (toL "bye")
      = [⟨Role.user, toL "hi"⟩, ⟨Role.model, toL "hello"⟩, ⟨Role.user, toL "bye"⟩] := by
  refine ⟨?_, ?_⟩
  · rw [buildConversationContents, normalizeHistory_eq]
  · rfl

/-! ## Boolean-field emission (C4) -/

lemma booleanEv_not_mem_scanStrings (accum : Str) (cs : List (Str × Nat)) (g : Str) (v : Bool) :
    Event.booleanEv (J := J) g v ∉ (scanStrings (J := J) accum cs).1 := by
  intro h
  obtain ⟨g', c', heq, _⟩ := scanStrings_shape accum cs _ h
  exact Event.noConfusion heq

lemma booleanEv_not_mem_scanArray (accum lastA : Str) (af : Option Str) (g : Str) (v : Bool) :
    Event.booleanEv (J := J) g v ∉ (scanArray (J := J) accum lastA af).1 := by
  intro h
  obtain ⟨g', its, heq, _⟩ := scanArray_shape accum lastA af _ h
  exact Event.noConfusion heq

lemma mem_stepChunk_boolEv (af : Option Str) (st : SState) (c : Option Str) (g : Str) (v : Bool) :
    Event.booleanEv (J := J) g v ∈ (stepChunk (J := J) af st c).1 →
    Event.booleanEv (J := J) g v
      ∈ (scanBools (J := J) (st.accumulated ++ unwrapChunk c) st.boolSent).1 := by
  intro h
  match c with
  | none => simp [stepChunk] at h
  | some t =>
    by_cases ht : t = []
    · simp [stepChunk, ht] at h
    · simp only [stepChunk, ht, if_neg] at h
      rcases List.mem_append.mp h with h1 | h1
      · rcases List.mem_append.mp h1 with h2 | h2
        · exact absurd h2 (booleanEv_not_mem_scanStrings _ _ _ _)
        · simpa [unwrapChunk] using h2
      · exact absurd h1 (booleanEv_not_mem_scanArray _ _ _ _ _)

lemma mem_scanBools_search (accum : Str) (bs : List (Str × Bool)) (g : Str) (v : Bool) :
    Event.booleanEv (J := J) g v ∈ (scanBools (J := J) accum bs).1 →
    searchWith (matchBoolAt g) accum = some v := by
  induction bs with
  | nil => intro h; simp [scanBools] at h
  | cons p rest ih =>
    obtain ⟨f, sent⟩ := p
    intro h
    simp only [scanBools] at h
    by_cases hsent : sent
    · rw [if_pos hsent] at h
      exact ih h
    · rw [if_neg hsent] at h
      rcases hs : searchWith (matchBoolAt f) accum with _ | b
      · rw [hs] at h
        exact ih h
      · rw [hs] at h
        simp only at h
        rcases List.mem_cons.mp h with h1 | h1
        · obtain ⟨h2, h3⟩ := (Event.booleanEv.injEq _ _ _ _).mp h1
          rw [h2, h3]
          exact hs
        · exact ih h1

lemma mem_scanBools_unsent (accum : Str) (bs : List (Str × Bool)) (g : Str) (v : Bool) :
    Event.booleanEv (J := J) g v ∈ (scanBools (J := J) accum bs).1 → (g, false) ∈ bs := by
  induction bs with
  | nil => intro h; simp [scanBools] at h
  | cons p rest ih =>
    obtain ⟨f, sent⟩ := p
    intro h
    simp only [scanBools] at h
    by_cases hsent : sent
    · rw [if_pos hsent] at h
      exact List.mem_cons_of_mem _ (ih h)
    · rw [if_neg hsent] at h
      have hsf : sent = false := by revert hsent; cases sent <;> simp
      rcases hs : searchWith (matchBoolAt f) accum with _ | b
      · rw [hs] at h
        exact List.mem_cons_of_mem _ (ih h)
      · rw [hs] at h
        simp only at h
        rcases List.mem_cons.mp h with h1 | h1
        · obtain ⟨h2, _⟩ := (Event.booleanEv.injEq _ _ _ _).mp h1
          rw [h2, ← hsf]
          exact List.mem_cons_self _ _
        · exact List.mem_cons_of_mem _ (ih h1)

lemma scanBools_snd (accum : Str) (bs : List (Str × Bool)) :
    (scanBools (J := J) accum bs).2
      = bs.map fun p => (p.1, p.2 || (searchWith (matchBoolAt p.1) accum).isSome) := by
  induction bs with
  | nil => rfl
  | cons p rest ih =>
    obtain ⟨f, sent⟩ := p
    simp only [scanBools, List.map_cons]
    by_cases hsent : sent
    · rw [if_pos hsent]
      simp [ih, hsent]
    · rw [if_neg hsent]
      have hsf : sent = false := by revert hsent; cases sent <;> simp
      rcases hs : searchWith (matchBoolAt f) accum with _ | b
      · simp [ih, hsf, hs]
      · simp [ih, hsf, hs]

lemma pendingF_cons (f g : Str) (s : Bool) (rest : List (Str × Bool)) :
    pendingF f ((g, s) :: rest)
      = (if (g == f && !s) = true then 1 else 0) + pendingF f rest := by
  by_cases h : (g == f && !s) = true
  · simp [pendingF, List.filter_cons, h, Nat.add_comm]
  · simp [pendingF, List.filter_cons, h]

lemma boolCount_append (f : Str) (a b : List (Event J)) :
    boolCount f (a ++ b) = boolCount f a + boolCount f b := by
  simp [boolCount, List.filter_append]

lemma boolCount_cons_boolEv (f g : Str) (b : Bool) (evs : List (Event J)) :
    boolCount f (Event.booleanEv g b :: evs)
      = (if (g == f) = true then 1 else 0) + boolCount f evs := by
  by_cases h : (g == f) = true
  · simp [boolCount, List.filter_cons, h, Nat.add_comm]
  · simp [boolCount, List.filter_cons, h]

lemma boolCount_scanStrings (accum : Str) (cs : List (Str × Nat)) (f : Str) :
    boolCount f (scanStrings (J := J) accum cs).1 = 0 := by
  rw [boolCount, List.length_eq_zero, List.filter_eq_nil_iff]
  intro e he
  obtain ⟨g, c, rfl, _⟩ := scanStrings_shape accum cs _ he
  simp

lemma boolCount_scanArray (accum lastA : Str) (af : Option Str) (f : Str) :
    boolCount f (scanArray (J := J) accum lastA af).1 = 0 := by
  rw [boolCount, List.length_eq_zero, List.filter_eq_nil_iff]
  intro e he
  obtain ⟨g, its, rfl, _⟩ := scanArray_shape accum lastA af _ he
  simp

lemma scanBools_pending (accum : Str) (bs : List (Str × Bool)) (f : Str) :
    boolCount f (scanBools (J := J) accum bs).1 + pendingF f (scanBools (J := J) accum bs).2
      = pendingF f bs := by
  induction bs with
  | nil => rfl
  | cons p rest ih =>
    obtain ⟨g, sent⟩ := p
    simp only [scanBools]
    by_cases hsent : sent
    · rw [if_pos hsent]
      have hsg : sent = true := hsent
      subst hsg
      rw [pendingF_cons, pendingF_cons]
      simp only [Bool.not_true, Bool.and_false]
      omega
    · rw [if_neg hsent]
      have hsf : sent = false := by revert hsent; cases sent <;> simp
      subst hsf
      rcases hs : searchWith (matchBoolAt g) accum with _ | b
      · simp only
        rw [pendingF_cons, pendingF_cons]
        omega
      · simp only
        rw [boolCount_cons_boolEv, pendingF_cons, pendingF_cons]
        by_cases hgf : (g == f) = true <;> simp [hgf] <;> omega

lemma stepChunk_pending (af : Option Str) (st : SState) (c : Option Str) (f : Str) :
    boolCount f (stepChunk (J := J) af st c).1
      + pendingF f ((stepChunk (J := J) af st c).2).boolSent
      = pendingF f st.boolSent := by
  match c with
  | none => simp [stepChunk, boolCount]
  | some t =>
    by_cases ht : t = []
    · simp [stepChunk, ht, boolCount]
    · simp only [stepChunk]
      rw [if_neg ht]
      dsimp only
      rw [boolCount_append, boolCount_append, boolCount_scanStrings, boolCount_scanArray]
      have h := scanBools_pending (J := J) (st.accumulated ++ t) st.boolSent f
      omega

lemma runChunks_pending (af : Option Str) (st : SState) (deltas : List (Option Str)) (f : Str) :
    boolCount f (runChunks (J := J) af st deltas).1
      + pendingF f ((runChunks (J := J) af st deltas).2).boolSent
      = pendingF f st.boolSent := by
  induction deltas generalizing st with
  | nil => simp [runChunks, boolCount]
  | cons c cs ih =>
    simp only [runChunks]
    rw [boolCount_append]
    have h1 := stepChunk_pending (J := J) af st c f
    have h2 := ih ((stepChunk (J := J) af st c).2)
    omega

lemma initBools_flags (schema : Schema) : ∀ p ∈ initBools schema, p.2 = false := by
  intro p hp
  obtain ⟨q, hq, hqe⟩ := List.mem_filterMap.mp hp
  by_cases hk : q.2 = FieldKind.boolean
  · rw [if_pos hk] at hqe
    rw [← Option.some_injective _ hqe]
  · rw [if_neg hk] at hqe
    exact absurd hqe (by simp)

lemma pendingF_initBools_zero {schema : Schema} {f : Str}
    (h : f ∉ schema.map Prod.fst) : pendingF f (initBools schema) = 0 := by
  induction schema with
  | nil => rfl
  | cons p rest ih =>
    have hne : ¬(p.1 == f) = true := by
      intro hh
      exact h (List.mem_map.mpr ⟨p, List.mem_cons_self _ _, by simpa using hh⟩)
    have htail : f ∉ rest.map Prod.fst := fun hm => h (by simp [hm])
    simp only [initBools, List.filterMap_cons]
    by_cases hk : p.2 = FieldKind.boolean
    · rw [if_pos hk]
      rw [pendingF_cons]
      have : (p.1 == f && !false) = false := by simp [hne]
      rw [this]
      simpa [initBools] using ih htail
    · rw [if_neg hk]
      simpa [initBools] using ih htail

lemma pendingF_initBools_le_one (schema : Schema) (f : Str)
    (hnd : (schema.map Prod.fst).Nodup) : pendingF f (initBools schema) ≤ 1 := by
  induction schema with
  | nil => exact Nat.zero_le _
  | cons p rest ih =>
    rw [List.map_cons, List.nodup_cons] at hnd
    simp only [initBools, List.filterMap_cons]
    by_cases hk : p.2 = FieldKind.boolean
    · rw [if_pos hk, pendingF_cons]
      by_cases hgf : (p.1 == f) = true
      · have hf : p.1 = f := by simpa using hgf
        have hz : pendingF f (initBools rest) = 0 :=
          pendingF_initBools_zero (by rw [← hf]; exact hnd.1)
        simp only [initBools] at hz
        simp [hgf, hz]
      · have : (p.1 == f && !false) = false := by simp [hgf]
        rw [this]
        simpa [initBools] using ih hnd.2
    · rw [if_neg hk]
      simpa [initBools] using ih hnd.2

lemma stepChunk_flags_true (af : Option Str) (st : SState) (c : Option Str) (f : Str)
    (h : ∀ p ∈ st.boolSent, p.1 = f → p.2 = true) :
    ∀ p ∈ ((stepChunk (J := J) af st c).2).boolSent, p.1 = f → p.2 = true := by
  match c with
  | none => simpa [stepChunk] using h
  | some t =>
    by_cases ht : t = []
    · simpa [stepChunk, ht] using h
    · intro p hp hpf
      simp only [stepChunk, ht, if_neg] at hp
      rw [scanBools_snd] at hp
      obtain ⟨q, hq, rfl⟩ := List.mem_map.mp hp
      simp only at hpf ⊢
      simp [h q hq hpf]

lemma stepChunk_flags_false (af : Option Str) (st : SState) (c : Option Str) (f : Str)
    (h : ∀ p ∈ st.boolSent, p.1 = f → p.2 = false)
    (hs : searchWith (matchBoolAt f) (st.accumulated ++ unwrapChunk c) = none) :
    ∀ p ∈ ((stepChunk (J := J) af st c).2).boolSent, p.1 = f → p.2 = false := by
  match c with
  | none => simpa [stepChunk] using h
  | some t =>
    by_cases ht : t = []
    · simpa [stepChunk, ht] using h
    · intro p hp hpf
      simp only [stepChunk, ht, if_neg] at hp
      rw [scanBools_snd] at hp
      obtain ⟨q, hq, rfl⟩ := List.mem_map.mp hp
      simp only at hpf ⊢
      simp only [unwrapChunk] at hs
      rw [hpf, h q hq hpf]
      simp [hs]

lemma runChunks_no_boolEv_of_sent (af : Option Str) (st : SState) (cs : List (Option Str))
    (f : Str) (v : Bool) (h : ∀ p ∈ st.boolSent, p.1 = f → p.2 = true) :
    Event.booleanEv (J := J) f v ∉ (runChunks (J := J) af st cs).1 := by
  induction cs generalizing st with
  | nil => simp [runChunks]
  | cons c cs' ih =>
    intro hmem
    simp only [runChunks] at hmem
    rcases List.mem_append.mp hmem with h1 | h1
    · have h2 := mem_scanBools_unsent _ _ _ _ (mem_stepChunk_boolEv af st c f v h1)
      exact Bool.noConfusion (h _ h2 rfl)
    · exact ih _ (stepChunk_flags_true af st c f h) h1

lemma runChunks_boolEv_first (af : Option Str) (st : SState) (cs : List (Option Str))
    (f : Str) (v : Bool)
    (hflags : ∀ p ∈ st.boolSent, p.1 = f → p.2 = false)
    (hnone : searchWith (matchBoolAt f) st.accumulated = none) :
    Event.booleanEv (J := J) f v ∈ (runChunks (J := J) af st cs).1 →
    ∃ t, t ≤ cs.length
      ∧ searchWith (matchBoolAt f) (st.accumulated ++ flattenChunks (cs.take t)) = some v
      ∧ ∀ u < t,
          searchWith (matchBoolAt f) (st.accumulated ++ flattenChunks (cs.take u)) = none := by
  induction cs generalizing st with
  | nil => intro h; simp [runChunks] at h
  | cons c cs' ih =>
    intro h
    simp only [runChunks] at h
    rcases List.mem_append.mp h with h1 | h1
    · have h2 := mem_scanBools_search _ _ _ _ (mem_stepChunk_boolEv af st c f v h1)
      refine ⟨1, by simp, ?_, ?_⟩
      · simpa [flattenChunks] using h2
      · intro u hu
        have hu0 : u = 0 := Nat.lt_one_iff.mp hu
        subst hu0
        simpa [flattenChunks] using hnone
    · rcases hs : searchWith (matchBoolAt f) (st.accumulated ++ unwrapChunk c) with _ | w
      · have hst' := stepChunk_flags_false (J := J) af st c f hflags hs
        have hacc := stepChunk_accumulated (J := J) af st c
        obtain ⟨t, htle, hsome, hprev⟩ := ih _ hst' (by rw [hacc]; exact hs) h1
        rw [hacc] at hsome
        refine ⟨t + 1, by simpa using Nat.succ_le_succ htle, ?_, ?_⟩
        · rw [List.take_succ_cons, flattenChunks_cons, ← List.append_assoc]
          exact hsome
        · intro u hu
          match u with
          | 0 => simpa [flattenChunks] using hnone
          | u' + 1 =>
            have hu' : u' < t := by omega
            have hp := hprev u' hu'
            rw [hacc] at hp
            rw [List.take_succ_cons, flattenChunks_cons, ← List.append_assoc]
            exact hp
      · exfalso
        match c with
        | none =>
          simp only [unwrapChunk, List.append_nil] at hs
          rw [hnone] at hs
          exact Option.noConfusion hs
        | some tt =>
          by_cases htt : tt = []
          · simp only [unwrapChunk, htt, List.append_nil] at hs
            rw [hnone] at hs
            exact Option.noConfusion hs
          · have hflags' : ∀ p ∈ ((stepChunk (J := J) af st (some tt)).2).boolSent,
                p.1 = f → p.2 = true := by
              intro p hp hpf
              simp only [stepChunk, htt, if_neg] at hp
              rw [scanBools_snd] at hp
              obtain ⟨q, hq, rfl⟩ := List.mem_map.mp hp
              simp only at hpf ⊢
              simp only [unwrapChunk] at hs
              rw [hpf, hs]
              simp
            exact runChunks_no_boolEv_of_sent af _ cs' f v hflags' h1

/-! ## String-field partial emission (C2) -/

lemma partialsFor_append (f : Str) (a b : List (Event J)) :
    partialsFor f (a ++ b) = partialsFor f a ++ partialsFor f b := by
  simp [partialsFor]

lemma concatPartials_append (f : Str) (a b : List (Event J)) :
    concatPartials f (a ++ b) = concatPartials f a ++ concatPartials f b := by
  simp [concatPartials, partialsFor_append]

lemma partialsFor_cons_same (f : Str) (c : Str) (evs : List (Event J)) :
    partialsFor f (Event.partialEv f c :: evs) = c :: partialsFor f evs := by
  simp [partialsFor, List.filterMap_cons]

lemma partialsFor_cons_other {g f : Str} (h : g ≠ f) (c : Str) (evs : List (Event J)) :
    partialsFor f (Event.partialEv g c :: evs) = partialsFor f evs := by
  simp [partialsFor, List.filterMap_cons, h]

lemma partialsFor_scanStrings_not_mem (accum : Str) (cs : List (Str × Nat)) (f : Str)
    (h : f ∉ cs.map Prod.fst) :
    partialsFor f (scanStrings (J := J) accum cs).1 = [] := by
  rw [partialsFor, List.filterMap_eq_nil_iff]
  intro e he
  obtain ⟨g, c, rfl, hg⟩ := scanStrings_shape accum cs _ he
  have hgf : g ≠ f := fun hgf => h (hgf ▸ hg)
  simp [hgf]

lemma partialsFor_scanBools (accum : Str) (bs : List (Str × Bool)) (f : Str) :
    partialsFor f (scanBools (J := J) accum bs).1 = [] := by
  rw [partialsFor, List.filterMap_eq_nil_iff]
  intro e he
  obtain ⟨g, b, rfl, _⟩ := scanBools_shape accum bs _ he
  rfl

lemma partialsFor_scanArray (accum lastA : Str) (af : Option Str) (f : Str) :
    partialsFor f (scanArray (J := J) accum lastA af).1 = [] := by
  rw [partialsFor, List.filterMap_eq_nil_iff]
  intro e he
  obtain ⟨g, its, rfl, _⟩ := scanArray_shape accum lastA af _ he
  rfl

lemma scanStrings_partials (accum : Str) (cs : List (Str × Nat)) (f : Str) (pos : Nat)
    (hnd : (cs.map Prod.fst).Nodup) (hmem : (f, pos) ∈ cs) :
    partialsFor f (scanStrings (J := J) accum cs).1 = emittedFor f accum pos
    ∧ (f, nextCursor f accum pos) ∈ (scanStrings (J := J) accum cs).2 := by
  induction cs with
  | nil => exact absurd hmem (List.not_mem_nil _)
  | cons p rest ih =>
    obtain ⟨g, q⟩ := p
    rw [List.map_cons, List.nodup_cons] at hnd
    rcases List.mem_cons.mp hmem with h1 | h1
    · obtain ⟨hfg, hpq⟩ := (Prod.mk.injEq _ _ _ _).mp h1
      subst hfg
      subst hpq
      have hrest : f ∉ rest.map Prod.fst := hnd.1
      simp only [scanStrings]
      rcases hs : searchWith (matchStringAt f) accum with _ | cap
      · dsimp only
        refine ⟨?_, ?_⟩
        · rw [partialsFor_scanStrings_not_mem accum rest f hrest]
          simp [emittedFor, hs]
        · simp only [nextCursor, hs]
          exact List.mem_cons_self _ _
      · dsimp only
        by_cases hnc : (unescapeString cap).drop pos = []
        · rw [if_pos hnc]
          refine ⟨?_, ?_⟩
          · rw [partialsFor_scanStrings_not_mem accum rest f hrest]
            simp only [emittedFor, hs]
            rw [if_pos hnc]
          · simp only [nextCursor, hs]
            rw [if_pos hnc]
            exact List.mem_cons_self _ _
        · rw [if_neg hnc]
          refine ⟨?_, ?_⟩
          · rw [partialsFor_cons_same, partialsFor_scanStrings_not_mem accum rest f hrest]
            simp only [emittedFor, hs]
            rw [if_neg hnc]
          · simp only [nextCursor, hs]
            rw [if_neg hnc]
            exact List.mem_cons_self _ _
    · have hgf : g ≠ f := by
        intro hgff
        exact hnd.1 (hgff ▸ List.mem_map.mpr ⟨(f, pos), h1, rfl⟩)
      obtain ⟨ihe, ihm⟩ := ih hnd.2 h1
      simp only [scanStrings]
      rcases hs : searchWith (matchStringAt g) accum with _ | cap
      · exact ⟨ihe, List.mem_cons_of_mem _ ihm⟩
      · dsimp only
        by_cases hnc : (unescapeString cap).drop q = []
        · rw [if_pos hnc]
          exact ⟨ihe, List.mem_cons_of_mem _ ihm⟩
        · rw [if_neg hnc]
          refine ⟨?_, List.mem_cons_of_mem _ ihm⟩
          rw [partialsFor_cons_other hgf]
          exact ihe

lemma emittedFor_flatten (f : Str) (accum : Str) (pos : Nat) :
    (emittedFor f accum pos).flatten = ((fieldValueAt f accum).getD []).drop pos := by
  rcases hs : searchWith (matchStringAt f) accum with _ | cap
  · simp [emittedFor, fieldValueAt, hs]
  · simp only [emittedFor, fieldValueAt, hs, Option.map_some', Option.getD_some]
    by_cases hnc : (unescapeString cap).drop pos = []
    · rw [if_pos hnc]
      simp [hnc]
    · rw [if_neg hnc]
      simp

lemma isGrowth_refl (v : Option Str) : isGrowth v v = true := by
  match v with
  | none => rfl
  | some u => simp [isGrowth]

lemma isGrowth_trans {a b c : Option Str} (h1 : isGrowth a b = true)
    (h2 : isGrowth b c = true) : isGrowth a c = true := by
  match a, b, c with
  | none, _, _ => rfl
  | some u, none, _ => exact absurd h1 (by simp [isGrowth])
  | some u, some v, none => exact absurd h2 (by simp [isGrowth])
  | some u, some v, some w =>
    simp only [isGrowth, List.isPrefixOf_iff_prefix] at h1 h2 ⊢
    exact h1.trans h2

lemma isGrowth_le (v₀ : Option Str) (w : Str) (hg : isGrowth v₀ (some w) = true) :
    ((v₀.getD []).length) ≤ w.length := by
  match v₀ with
  | none => simp
  | some u =>
    have hp : u <+: w := by simpa [isGrowth, List.isPrefixOf_iff_prefix] using hg
    simpa using hp.length_le

lemma isGrowth_chain (f : Str) (A : Str) (cs : List (Option Str))
    (hgrow : ∀ t < cs.length,
      isGrowth (fieldValueAt f (A ++ flattenChunks (cs.take t)))
        (fieldValueAt f (A ++ flattenChunks (cs.take (t + 1)))) = true) :
    isGrowth (fieldValueAt f A) (fieldValueAt f (A ++ flattenChunks cs)) = true := by
  induction cs generalizing A with
  | nil => simpa [flattenChunks] using isGrowth_refl (fieldValueAt f A)
  | cons c cs' ih =>
    have h0 := hgrow 0 (by simp)
    simp only [List.take_zero, List.take_succ_cons, flattenChunks, List.map_nil, List.map_cons,
      List.flatten_nil, List.flatten_cons, List.append_nil] at h0
    have hrest : ∀ t < cs'.length,
        isGrowth (fieldValueAt f ((A ++ unwrapChunk c) ++ flattenChunks (cs'.take t)))
          (fieldValueAt f ((A ++ unwrapChunk c) ++ flattenChunks (cs'.take (t + 1)))) = true := by
      intro t htl
      have := hgrow (t + 1) (by simpa using Nat.succ_lt_succ htl)
      simpa [List.take_succ_cons, flattenChunks_cons, List.append_assoc] using this
    have htr := isGrowth_trans h0 (ih (A ++ unwrapChunk c) hrest)
    simpa [flattenChunks_cons, List.append_assoc] using htr

lemma drop_telescope (u w : Str) (pos : Nat) (h : u <+: w) (hp : pos ≤ u.length) :
    u.drop pos ++ w.drop u.length = w.drop pos := by
  obtain ⟨tail, rfl⟩ := h
  rw [List.drop_left, List.drop_append_of_le_length hp]

lemma nextCursor_eq (f A accum' : Str)
    (hg : isGrowth (fieldValueAt f A) (fieldValueAt f accum') = true) :
    nextCursor f accum' ((fieldValueAt f A).getD []).length
      = ((fieldValueAt f accum').getD []).length := by
  rcases hs : searchWith (matchStringAt f) accum' with _ | cap
  · have hv1 : fieldValueAt f accum' = none := by simp [fieldValueAt, hs]
    rw [hv1] at hg
    rcases hv0 : fieldValueAt f A with _ | u
    · simp [nextCursor, hs, hv0, hv1]
    · rw [hv0] at hg
      exact absurd hg (by simp [isGrowth])
  · have hv1 : fieldValueAt f accum' = some (unescapeString cap) := by
      simp [fieldValueAt, hs]
    rw [hv1] at hg
    have hple : ((fieldValueAt f A).getD []).length ≤ (unescapeString cap).length :=
      isGrowth_le _ _ hg
    rw [hv1]
    by_cases hnc : (unescapeString cap).drop ((fieldValueAt f A).getD []).length = []
    · have hge : (unescapeString cap).length ≤ ((fieldValueAt f A).getD []).length := by
        simpa using (List.drop_eq_nil_iff).mp hnc
      simp only [nextCursor, hs]
      rw [if_pos hnc]
      simp only [Option.getD_some]
      omega
    · simp only [nextCursor, hs]
      rw [if_neg hnc]
      simp

lemma runChunks_partials (af : Option Str) (st : SState) (deltas : List (Option Str)) (f : Str)
    (hnd : (st.cursors.map Prod.fst).Nodup)
    (hmem : (f, ((fieldValueAt f st.accumulated).getD []).length) ∈ st.cursors)
    (hgrow : ∀ t < deltas.length,
      isGrowth (fieldValueAt f (st.accumulated ++ flattenChunks (deltas.take t)))
        (fieldValueAt f (st.accumulated ++ flattenChunks (deltas.take (t + 1)))) = true) :
    concatPartials f (runChunks (J := J) af st deltas).1
      = ((fieldValueAt f (st.accumulated ++ flattenChunks deltas)).getD []).drop
          ((fieldValueAt f st.accumulated).getD []).length := by
  induction deltas generalizing st with
  | nil =>
    simp [runChunks, concatPartials, partialsFor, flattenChunks, List.drop_length]
  | cons c cs ih =>
    have htriv : ∀ (hstep : stepChunk (J := J) af st c = ([], st)) (hc : unwrapChunk c = []),
        concatPartials f (runChunks (J := J) af st (c :: cs)).1
          = ((fieldValueAt f (st.accumulated ++ flattenChunks (c :: cs))).getD []).drop
              ((fieldValueAt f st.accumulated).getD []).length := by
      intro hstep hc
      have hgrow' : ∀ t < cs.length,
          isGrowth (fieldValueAt f (st.accumulated ++ flattenChunks (cs.take t)))
            (fieldValueAt f (st.accumulated ++ flattenChunks (cs.take (t + 1)))) = true := by
        intro t htl
        have := hgrow (t + 1) (by simpa using Nat.succ_lt_succ htl)
        simpa [List.take_succ_cons, flattenChunks_cons, hc] using this
      have := ih st hnd hmem hgrow'
      simp only [runChunks, hstep, List.nil_append]
      rw [this, flattenChunks_cons, hc, List.nil_append]
    match c with
    | none => exact htriv rfl rfl
    | some tch =>
      by_cases ht : tch = []
      · exact htriv (by simp [stepChunk, ht]) (by simp [unwrapChunk, ht])
      · have hg0 : isGrowth (fieldValueAt f st.accumulated)
            (fieldValueAt f (st.accumulated ++ tch)) = true := by
          have := hgrow 0 (by simp)
          simpa [flattenChunks, flattenChunks_cons, unwrapChunk] using this
        have hstep1 : partialsFor f (stepChunk (J := J) af st (some tch)).1
            = emittedFor f (st.accumulated ++ tch)
                ((fieldValueAt f st.accumulated).getD []).length := by
          simp only [stepChunk]
          rw [if_neg ht]
          dsimp only
          rw [partialsFor_append, partialsFor_append,
            (scanStrings_partials (st.accumulated ++ tch) st.cursors f _ hnd hmem).1,
            partialsFor_scanBools, partialsFor_scanArray]
          simp
        have hstep2 : (f, ((fieldValueAt f (st.accumulated ++ tch)).getD []).length)
            ∈ ((stepChunk (J := J) af st (some tch)).2).cursors := by
          simp only [stepChunk]
          rw [if_neg ht]
          dsimp only
          have hm := (scanStrings_partials (J := J) (st.accumulated ++ tch)
            st.cursors f _ hnd hmem).2
          rwa [nextCursor_eq f st.accumulated (st.accumulated ++ tch) hg0] at hm
        have hnd' : (((stepChunk (J := J) af st (some tch)).2).cursors.map Prod.fst).Nodup := by
          simp only [stepChunk]
          rw [if_neg ht]
          dsimp only
          rw [scanStrings_names]
          exact hnd
        have hacc' : ((stepChunk (J := J) af st (some tch)).2).accumulated
            = st.accumulated ++ tch := by
          simp only [stepChunk]
          rw [if_neg ht]
        have hgrow' : ∀ t < cs.length,
            isGrowth (fieldValueAt f (((stepChunk (J := J) af st (some tch)).2).accumulated
                ++ flattenChunks (cs.take t)))
              (fieldValueAt f (((stepChunk (J := J) af st (some tch)).2).accumulated
                ++ flattenChunks (cs.take (t + 1)))) = true := by
          intro t htl
          rw [hacc']
          have := hgrow (t + 1) (by simpa using Nat.succ_lt_succ htl)
          simpa [List.take_succ_cons, flattenChunks_cons, unwrapChunk, List.append_assoc]
            using this
        have hrest := ih _ hnd' (by rw [hacc']; exact hstep2) hgrow'
        rw [hacc'] at hrest
        have hchain : isGrowth (fieldValueAt f (st.accumulated ++ tch))
            (fieldValueAt f ((st.accumulated ++ tch) ++ flattenChunks cs)) = true := by
          apply isGrowth_chain
          intro t htl
          have := hgrow (t + 1) (by simpa using Nat.succ_lt_succ htl)
          simpa [List.take_succ_cons, flattenChunks_cons, unwrapChunk, List.append_assoc]
            using this
        simp only [runChunks]
        rw [concatPartials_append]
        rw [show concatPartials f (stepChunk (J := J) af st (some tch)).1
              = (emittedFor f (st.accumulated ++ tch)
                  ((fieldValueAt f st.accumulated).getD []).length).flatten from by
            rw [concatPartials, hstep1]]
        rw [emittedFor_flatten, hrest]
        rw [show st.accumulated ++ flattenChunks (some tch :: cs)
              = (st.accumulated ++ tch) ++ flattenChunks cs from by
            rw [flattenChunks_cons, List.append_assoc]; rfl]
        rcases hv1 : fieldValueAt f (st.accumulated ++ tch) with _ | w
        · rw [hv1] at hg0
          rcases hv0 : fieldValueAt f st.accumulated with _ | u
          · simp [hv0]
          · rw [hv0] at hg0
            exact absurd hg0 (by simp [isGrowth])
        · rw [hv1] at hchain hg0
          rcases hvf : fieldValueAt f ((st.accumulated ++ tch) ++ flattenChunks cs) with _ | wf
          · rw [hvf] at hchain
            exact absurd hchain (by simp [isGrowth])
          · rw [hvf] at hchain
            have hpfx : w <+: wf := by
              simpa [isGrowth, List.isPrefixOf_iff_prefix] using hchain
            have hple : ((fieldValueAt f st.accumulated).getD []).length ≤ w.length :=
              isGrowth_le _ _ hg0
            simp only [Option.getD_some]
            exact drop_telescope w wf _ hpfx hple

lemma initCursors_names_nodup (schema : Schema) (h : (schema.map Prod.fst).Nodup) :
    ((initCursors schema).map Prod.fst).Nodup := by
  induction schema with
  | nil => simp [initCursors]
  | cons p rest ih =>
    rw [List.map_cons, List.nodup_cons] at h
    simp only [initCursors, List.filterMap_cons]
    by_cases hk : p.2 = FieldKind.string
    · rw [if_pos hk, List.map_cons, List.nodup_cons]
      refine ⟨?_, ?_⟩
      · intro hmm
        exact h.1 (List.mem_map.mpr
          ⟨(p.1, FieldKind.string), mem_initCursors_names hmm, rfl⟩)
      · simpa [initCursors] using ih h.2
    · rw [if_neg hk]
      simpa [initCursors] using ih h.2

/-- C2 counterexample: when the two-character escape `\n` is split
across two deltas, the backslash is emitted as field content by the
first tick and the unescaped newline then shifts the cursor, so the
concatenated `partial` contents (`ab\cd`) differ from the full
unescaped value at stream end (`ab`, newline, `cd`): a character is
duplicated (the backslash) and one is skipped (the newline). -/
theorem C2_counterexample :
    concatPartials (toL "f")
        (generate (fun _ => (none : Option Unit)) [(toL "f", FieldKind.string)]
          [some (toL "\x7b\"f\": \"ab\\"), some (toL "ncd\"\x7d")] none)
      = toL "ab\\cd"
    ∧ (fieldValueAt (toL "f")
        (flattenChunks [some (toL "\x7b\"f\": \"ab\\"), some (toL "ncd\"\x7d")])).getD []
      = ['a', 'b', '\n', 'c', 'd']
    ∧ toL "ab\\cd" ≠ ['a', 'b', '\n', 'c', 'd'] :=
  ⟨rfl, rfl, by decide⟩

/-- C2 (amended): provided the extracted unescaped value of the field
grows monotonically across the session (each tick's value extends the
previous one — true unless a two-character escape such as `\n`/`\t` is
split across delta boundaries), the concatenation of all `partial`
contents emitted for a declared string field equals the full unescaped
value the extraction yields on the accumulated text at stream end.
Note the extraction itself (faithful to the source regex) reads the
value as the run up to the first quote character, so an escaped quote
also ends the captured value.  Field names are unique, as they come
from a Python dict. -/
theorem C2_partial_concat (J : Type) (parse : Str → Option J) (schema : Schema)
    (deltas : List (Option Str)) (err : Option Str) (f : Str)
    (hnodup : (schema.map Prod.fst).Nodup)
    (hf : (f, FieldKind.string) ∈ schema)
    (hgrow : ∀ t < deltas.length,
      isGrowth (fieldValueAt f (accumAt deltas t)) (fieldValueAt f (accumAt deltas (t + 1)))
        = true) :
    concatPartials f (generate parse schema deltas err)
      = (fieldValueAt f (flattenChunks deltas)).getD [] := by
  rw [generate_eq, concatPartials_append]
  have hterm : concatPartials f [terminalEventOf parse deltas err] = [] := by
    match err with
    | some m => rfl
    | none =>
      rw [terminalEventOf]
      rcases parse (flattenChunks deltas) with _ | j <;> rfl
  rw [hterm, List.append_nil]
  have h0 : fieldValueAt f ([] : Str) = none := by
    simp [fieldValueAt, searchWith, matchStringAt, matchKeyAt]
  have hndc : ((initCursors schema).map Prod.fst).Nodup := initCursors_names_nodup schema hnodup
  have hmem0 : (f, ((fieldValueAt f ([] : Str)).getD []).length) ∈ initCursors schema := by
    rw [h0]
    exact List.mem_filterMap.mpr ⟨(f, FieldKind.string), hf, by simp⟩
  have hrun := runChunks_partials (J := J) (arrayFieldOf schema)
    ⟨[], initCursors schema, initBools schema, []⟩ deltas f hndc hmem0
    (by intro t htl; simpa [accumAt] using hgrow t htl)
  simpa [h0, accumAt] using hrun

/-- C2 witness: a session that splits a string value across two plain
deltas satisfies the growth hypothesis, and the two `partial` contents
concatenate to the full extracted value. -/
theorem C2_partial_concat_witness :
    concatPartials (toL "title")
        (generate (fun _ => (none : Option Unit)) [(toL "title", FieldKind.string)]
          [some (toL "\x7b\"title\": \"ab"), some (toL "cd\"\x7d")] none)
      = (fieldValueAt (toL "title")
          (flattenChunks [some (toL "\x7b\"title\": \"ab"), some (toL "cd\"\x7d")])).getD [] :=
  C2_partial_concat Unit (fun _ => none) [(toL "title", FieldKind.string)]
    [some (toL "\x7b\"title\": \"ab"), some (toL "cd\"\x7d")] none (toL "title")
    (by decide) (by decide) (by decide)

/-- C4 counterexample: the boolean regex searches the whole buffer and
fires on the leftmost `"is_ok": true/false` text, which here belongs to
a nested object; the session emits `boolean is_ok true` while the final
parsed JSON's top-level `is_ok` is `false`. -/
theorem C4_counterexample :
    generate jsonParse [(toL "is_ok", FieldKind.boolean)]
        [some (toL "\x7b\"inner\": \x7b\"is_ok\": true\x7d, \"is_ok\": false\x7d")] none
      = [Event.booleanEv (toL "is_ok") true,
         Event.completeEv (Sum.inl (Json.jobj
           [(toL "inner", Json.jobj [(toL "is_ok", Json.jbool true)]),
            (toL "is_ok", Json.jbool false)]))]
    ∧ jlookup (toL "is_ok")
        (Json.jobj [(toL "inner", Json.jobj [(toL "is_ok", Json.jbool true)]),
                    (toL "is_ok", Json.jbool false)])
        = some (Json.jbool false)
    ∧ (true : Bool) ≠ false :=
  ⟨rfl, rfl, by decide⟩

/-- C4 (amended): at most one `boolean` event is emitted per field per
session; its value is the boolean literal at the leftmost match of the
key pattern in the accumulated text at the first tick where any match
exists — which, as the counterexample shows, need not agree with the
final parsed JSON's top-level value for that field when the key text
also occurs earlier in the buffer (e.g. inside a nested object). -/
theorem C4_boolean_once_and_first (J : Type) (parse : Str → Option J) (schema : Schema)
    (deltas : List (Option Str)) (err : Option Str) (f : Str)
    (hnodup : (schema.map Prod.fst).Nodup) :
    boolCount f (generate parse schema deltas err) ≤ 1
    ∧ ∀ v, Event.booleanEv f v ∈ generate parse schema deltas err →
        ∃ t, t ≤ deltas.length
          ∧ searchWith (matchBoolAt f) (accumAt deltas t) = some v
          ∧ ∀ u < t, searchWith (matchBoolAt f) (accumAt deltas u) = none := by
  constructor
  · rw [generate_eq, boolCount_append]
    have h1 := runChunks_pending (J := J) (arrayFieldOf schema)
      ⟨[], initCursors schema, initBools schema, []⟩ deltas f
    have h2 := pendingF_initBools_le_one schema f hnodup
    have h3 : boolCount f [terminalEventOf parse deltas err] = 0 := by
      match err with
      | some m => rfl
      | none =>
        rw [terminalEventOf]
        rcases parse (flattenChunks deltas) with _ | j <;> rfl
    simp only at h1
    omega
  · intro v hv
    rw [generate_eq] at hv
    rcases List.mem_append.mp hv with h1 | h1
    · have hflags : ∀ p ∈ (SState.mk [] (initCursors schema) (initBools schema) []).boolSent,
          p.1 = f → p.2 = false := fun p hp _ => initBools_flags schema p hp
      have hnone : searchWith (matchBoolAt f)
          (SState.mk [] (initCursors schema) (initBools schema) []).accumulated = none := by
        simp [searchWith, matchBoolAt, matchKeyAt]
      obtain ⟨t, ht, hsome, hprev⟩ :=
        runChunks_boolEv_first _ _ _ _ _ hflags hnone h1
      refine ⟨t, ht, ?_, ?_⟩
      · simpa [accumAt] using hsome
      · intro u hu
        simpa [accumAt] using hprev u hu
    · exfalso
      have hmem := List.mem_singleton.mp h1
      revert hmem
      match err with
      | some m => exact fun hh => Event.noConfusion hh
      | none =>
        rw [terminalEventOf]
        rcases parse (flattenChunks deltas) with _ | j <;> exact fun hh => Event.noConfusion hh

/-- C4 witness: a concrete two-chunk session whose boolean completes in
the second chunk fires once, with the match first appearing at `t = 2`
and no match on any earlier prefix. -/
theorem C4_boolean_once_and_first_witness :
    boolCount (toL "is_ok")
        (generate (fun _ => (none : Option Unit)) [(toL "is_ok", FieldKind.boolean)]
          [some (toL "\x7b\"is_ok\": tr"), some (toL "ue\x7d")] none) ≤ 1
    ∧ ∃ t, t ≤ ([some (toL "\x7b\"is_ok\": tr"), some (toL "ue\x7d")] : List (Option Str)).length
        ∧ searchWith (matchBoolAt (toL "is_ok"))
            (accumAt [some (toL "\x7b\"is_ok\": tr"), some (toL "ue\x7d")] t) = some true
        ∧ ∀ u < t, searchWith (matchBoolAt (toL "is_ok"))
            (accumAt [some (toL "\x7b\"is_ok\": tr"), some (toL "ue\x7d")] u) = none :=
  ⟨(C4_boolean_once_and_first Unit (fun _ => none) [(toL "is_ok", FieldKind.boolean)]
      [some (toL "\x7b\"is_ok\": tr"), some (toL "ue\x7d")] none (toL "is_ok") (by decide)).1,
   (C4_boolean_once_and_first Unit (fun _ => none) [(toL "is_ok", FieldKind.boolean)]
      [some (toL "\x7b\"is_ok\": tr"), some (toL "ue\x7d")] none (toL "is_ok") (by decide)).2
     true (by decide)⟩

end Streaming
